import Mathlib

/-!
Verification of the text-analytics pipeline in spark_text_lab.py.

The embedding models:
* tokenize       -- re.findall of the pattern \b[0-9a-zA-Z']+\b, lower-cased
* rdd_word_counts, compare_stopwords (its stopword filter), df_from_counts,
  weighted_avg_word_length, filter_count_ge, mongo_store_counts (its document
  payload), top_bigrams (its bigram counting), per_file_and_global_counts.

Distributed collections (RDDs) are modelled as lists; reduce-by-key is the
fold that accumulates each (key, value) pair into an association list,
which realises the commutative/associative summed mapping that Spark's
reduceByKey guarantees.  Python true division is modelled over the rationals;
operations of the source that raise an uncaught exception (division by zero,
division of None coming from a SQL sum over an empty relation, schema
inference over an empty RDD) are modelled as returning none.
-/

namespace SparkTextLab

/-- The apostrophe character, written via its code point. -/
def quoteChar : Char := Char.ofNat 39

/-- Word character of the Python regex engine for the boundary assertion,
restricted to the ASCII plane: alphanumeric or underscore.  The engine's
word class over str patterns is Unicode-aware; on ASCII characters it is
exactly this predicate, so the boundary model is exact for ASCII texts,
and the boundary-sensitive theorem confines its inputs to them. -/
def isWordChar (c : Char) : Bool := c.isAlphanum || c = '_'

/-- Character class of the token pattern: [0-9a-zA-Z']. -/
def isTokChar (c : Char) : Bool := c.isAlphanum || c = quoteChar

/-- Is the character the apostrophe? -/
def isQuote (c : Char) : Bool := c = quoteChar

/-- Word-ness of an optional character; out of range counts as non-word. -/
def optWord : Option Char → Bool
  | some c => isWordChar c
  | none => false

/-- The boundary assertion between two adjacent positions: it holds
when exactly one side is a word character. -/
def isB (prev next : Option Char) : Bool := optWord prev != optWord next

/-- Greedy backtracking of the trailing boundary over a candidate run,
processed from the right: the argument is the reversed run, next0 is the
character just after the currently considered end.  Returns the length of
the longest prefix of the run that ends at a boundary, none if there is
no such nonempty prefix.  This realises the engine matching the final
boundary after the greedy one-or-more repetition. -/
def greedyRev : List Char → Option Char → Option Nat
  | [], _ => none
  | p :: rev, next0 =>
    if isB (some p) next0 then some (rev.length + 1) else greedyRev rev (some p)

/-- Length taken by the match whose candidate run is r and whose following
character is next0. -/
def greedyLen (r : List Char) (next0 : Option Char) : Option Nat :=
  greedyRev r.reverse next0

/-- The scan loop of re.findall for the pattern: at each position, if the
initial boundary holds and the character is in the class, take the maximal
class run, settle its end by greedy backtracking, emit the match and resume
right after it; otherwise advance one character.  prev is the character
just before the current position; the fuel dominates the number of steps. -/
def scanAux : Nat → Option Char → List Char → List (List Char)
  | 0, _, _ => []
  | _ + 1, _, [] => []
  | fuel + 1, prev, c :: t =>
    if isTokChar c && isB prev (some c) then
      match greedyLen (c :: t.takeWhile isTokChar) (t.dropWhile isTokChar).head? with
      | some l =>
          (c :: t.takeWhile isTokChar).take l ::
            scanAux fuel ((c :: t.takeWhile isTokChar).take l).getLast?
              ((c :: t.takeWhile isTokChar).drop l ++ t.dropWhile isTokChar)
      | none => scanAux fuel (some c) t
    else scanAux fuel (some c) t

/-- All matches of the pattern over a character list (re.findall). -/
def findall (s : List Char) : List (List Char) := scanAux s.length none s

/-- tokenize: the matches of WORD_RE over the text, each lower-cased. -/
def tokenize (s : String) : List String :=
  (findall s.data).map (fun w => String.mk (w.map Char.toLower))

/-- STOPWORDS of the source. -/
def STOPWORDS : List String := ["is", "a", "the", "to", "with", "and"]

/-- Accumulate one (key, value) pair into an association list, adding the
value to the entry of the key when present.  This is the combining step of
reduceByKey with the addition reducer. -/
def lookupAdd : List (String × Nat) → String → Nat → List (String × Nat)
  | [], k, v => [(k, v)]
  | (k1, v1) :: t, k, v =>
    if k1 = k then (k1, v1 + v) :: t else (k1, v1) :: lookupAdd t k v

/-- reduceByKey with the addition reducer over a list of (key, value)
pairs: each key appears once, carrying the sum of its values.  Spark only
guarantees the resulting mapping (the reducer being commutative and
associative); the model fixes first-occurrence key order. -/
def reduceByKey (ps : List (String × Nat)) : List (String × Nat) :=
  ps.foldl (fun acc p => lookupAdd acc p.1 p.2) []

/-- Dictionary lookup with default 0 (dict.get(t, 0)). -/
def getD : List (String × Nat) → String → Nat
  | [], _ => 0
  | (k, v) :: t, w => if k = w then v else getD t w

/-- Sum of all the counts of a distribution. -/
def sumValues (l : List (String × Nat)) : Nat := (l.map Prod.snd).sum

/-- rdd_word_counts: tokenize every line, flatten, pair each token with 1
and reduce by key with addition. -/
def rdd_word_counts (lines : List String) : List (String × Nat) :=
  reduceByKey ((lines.flatMap tokenize).map (fun w => (w, 1)))

/-- The stopword filter inside compare_stopwords: keep the pairs whose key
is not a stopword. -/
def stopword_filter (counts : List (String × Nat)) : List (String × Nat) :=
  counts.filter (fun p => ¬ p.1 ∈ STOPWORDS)

/-- The set of keys of a distribution. -/
def keySet (l : List (String × Nat)) : Set String := {w | ∃ c, (w, c) ∈ l}

/-- The row transformation of df_from_counts: a first pass materialises the
placeholder length column rlike evaluated and cast, times zero plus one,
which is the constant 1; a second pass rebuilds every row with the true
character length of the word. -/
def df_rows (counts : List (String × Nat)) : List (String × Nat × Nat) :=
  ((counts.map (fun wc => (wc.1, wc.2, 1))).map
    (fun r => (r.1, r.2.1, r.1.length)))

/-- df_from_counts: the rows together with the total count.  On an empty
counts collection the source raises (schema inference over an empty RDD
fails, and the SQL sum of an empty relation is null), modelled as none.
The derived freq column is not consumed by any modelled operation and is
omitted from the row shape. -/
def df_from_counts (counts : List (String × Nat)) :
    Option (List (String × Nat × Nat) × Nat) :=
  match counts with
  | [] => none
  | _ => some (df_rows counts, sumValues counts)

/-- weighted_avg_word_length: the sum of length times count divided by the
total.  Python division by a zero total raises ZeroDivisionError, modelled
as none; true division is modelled over the rationals. -/
def weighted_avg_word_length (df : List (String × Nat × Nat)) (total : Nat) :
    Option ℚ :=
  if total = 0 then none
  else some ((((df.map (fun r => r.2.2 * r.2.1)).sum : ℕ) : ℚ) / (total : ℚ))

/-- filter_count_ge: recompute the total, keep the rows whose count is at
least n, and divide the retained total by the whole total.  The SQL sum of
an empty relation is null: with no rows at all the total is null and the
division raises, and with no retained rows the numerator is null and the
division raises; a zero total raises ZeroDivisionError.  Every raising
path is modelled as none. -/
def filter_count_ge (df : List (String × Nat × Nat)) (n : Nat) :
    Option (List (String × Nat × Nat) × ℚ) :=
  match df with
  | [] => none
  | _ =>
    match df.filter (fun r => n ≤ r.2.1) with
    | [] => none
    | _ =>
      if (df.map (fun r => r.2.1)).sum = 0 then none
      else some (df.filter (fun r => n ≤ r.2.1),
        ((((df.filter (fun r => n ≤ r.2.1)).map (fun r => r.2.1)).sum : ℕ) : ℚ) /
          ((((df.map (fun r => r.2.1)).sum : ℕ)) : ℚ))

/-- The document payload built by mongo_store_counts: one record
(word, count, length of word) per entry of the counts. -/
def mongo_docs (counts : List (String × Nat)) : List (String × Nat × Nat) :=
  counts.map (fun wc => (wc.1, wc.2, wc.1.length))

/-- The adjacent-pair extraction of top_bigrams over one token sequence:
every pair of consecutive tokens joined by a single space. -/
def lineBigrams (ws : List String) : List String :=
  List.zipWith (fun a b => a ++ " " ++ b) ws ws.tail

/-- The bigram count distribution of top_bigrams: tokenize each line, drop
the empty token sequences, emit the adjacent pairs of each sequence paired
with 1, and reduce by key with addition. -/
def top_bigrams_counts (lines : List String) : List (String × Nat) :=
  reduceByKey
    ((((lines.map tokenize).filter (fun t => t ≠ [])).flatMap lineBigrams).map
      (fun b => (b, 1)))

/-- Split a character list on the slash separator, as Python str.split
with an explicit separator: the result is never empty, empty pieces are
kept. -/
def splitSlash (s : List Char) : List (List Char) :=
  s.foldr
    (fun c acc =>
      if c = '/' then [] :: acc
      else
        match acc with
        | [] => [[c]]
        | g :: gs => (c :: g) :: gs)
    [[]]

/-- The final path segment: split on the slash and take the last piece
(kv[0].split('/')[-1]). -/
def basename (p : String) : String :=
  String.mk ((splitSlash p.data).getLastD p.data)

/-- Counter over the tokens of one text, as a count distribution. -/
def counterOf (text : String) : List (String × Nat) :=
  reduceByKey ((tokenize text).map (fun w => (w, 1)))

/-- The per-file component of per_file_and_global_counts: each (path,
content) pair becomes (final path segment, token counts of the content). -/
def per_file (files : List (String × String)) :
    List (String × List (String × Nat)) :=
  files.map (fun kv => (basename kv.1, counterOf kv.2))

/-- The global component of per_file_and_global_counts: tokenize every
file content, flatten, and reduce by key with addition. -/
def global_counts (files : List (String × String)) : List (String × Nat) :=
  reduceByKey ((files.flatMap (fun kv => tokenize kv.2)).map (fun w => (w, 1)))

/-- Lexicographic order on character lists by code point, weak form. -/
def charListLe : List Char → List Char → Bool
  | [], _ => true
  | _ :: _, [] => false
  | a :: as, b :: bs =>
    if a.val < b.val then true
    else if b.val < a.val then false
    else charListLe as bs

/-- Lexicographic order on strings by code point, weak form. -/
def strLe (a b : String) : Bool := charListLe a.data b.data

/-- Modelled from the spec: deterministic top-N selection ordered by
descending count with ties broken lexicographically ascending on the key.
The source's takeOrdered leaves ties to encounter order; the spec directs
the implementer to this explicit tie-break.  Insertion point: p goes
before q when p has the larger count, or equal counts and the
lexicographically smaller key. -/
def pairBefore (p q : String × Nat) : Bool :=
  q.2 < p.2 || (p.2 = q.2 && strLe p.1 q.1)

/-- Insert a pair into a list sorted by pairBefore. -/
def insertPair (p : String × Nat) : List (String × Nat) → List (String × Nat)
  | [] => [p]
  | q :: t => if pairBefore p q then p :: q :: t else q :: insertPair p t

/-- Modelled from the spec: sort a distribution by descending count with
the lexicographic tie-break and keep the first n entries. -/
def topNLex (n : Nat) (counts : List (String × Nat)) : List (String × Nat) :=
  (counts.foldr insertPair []).take n

/-- The maximal contiguous runs of [0-9a-zA-Z'] characters of a text, in
order; every other character separates runs.  Fuel-driven so that the
definition evaluates by reduction; the fuel dominates the number of runs
consumed. -/
def runsOfAux : Nat → List Char → List (List Char)
  | 0, _ => []
  | _ + 1, [] => []
  | fuel + 1, c :: t =>
    if isTokChar c then
      (c :: t.takeWhile isTokChar) :: runsOfAux fuel (t.dropWhile isTokChar)
    else runsOfAux fuel t

/-- The maximal contiguous runs of [0-9a-zA-Z'] characters. -/
def runsOf (s : List Char) : List (List Char) := runsOfAux s.length s

/-- A run with its leading and trailing apostrophes removed. -/
def stripRun (r : List Char) : List Char :=
  (((r.dropWhile isQuote).reverse.dropWhile isQuote)).reverse

/-- The runs of a text stripped of their edge apostrophes, the runs left
empty (those made only of apostrophes) removed. -/
def runsStripped (s : List Char) : List (List Char) :=
  (runsOf s).filterMap (fun r =>
    if stripRun r = [] then none else some (stripRun r))

/-- The tokenizer the specification describes, taken from its words: the
maximal contiguous runs of [0-9a-zA-Z'] characters, in order, each
lower-cased, every other character acting purely as a separator. -/
def claimed_tokenize (s : String) : List String :=
  (runsOf s.data).map (fun w => String.mk (w.map Char.toLower))

/-- The value a key contributes to a list of (key, value) pairs: the sum
of the values paired with it. -/
def sumFor (ps : List (String × Nat)) (w : String) : Nat :=
  (ps.map (fun p => if p.1 = w then p.2 else 0)).sum

/-- The share filter_count_ge computes on its defined path: the retained
total divided by the whole total, over the rationals. -/
def shareOf (df : List (String × Nat × Nat)) (n : Nat) : ℚ :=
  ((((df.filter (fun r => n ≤ r.2.1)).map (fun r => r.2.1)).sum : ℕ) : ℚ) /
    (((df.map (fun r => r.2.1)).sum : ℕ) : ℚ)

/-- A text whose every character is either in the token class or a
non-word separator: no underscore (nor any other word character outside
[0-9a-zA-Z']) occurs. -/
def noForeignWordChar (s : List Char) : Prop :=
  ∀ c ∈ s, isTokChar c = true ∨ isWordChar c = false

/-- After the leading apostrophes, the text starts with a non-class
character or ends: the state in which a scan resumed inside trailing
apostrophes finds no further match before the next separator. -/
def quotesThenSep (s : List Char) : Prop :=
  ∀ d ∈ (s.dropWhile isQuote).head?, isTokChar d = false

/-- The input refuting the maximal-run reading of the tokenizer: an
apostrophe-led word followed by two alphanumeric runs joined by an
underscore. -/
def c3Input : List Char :=
  quoteChar :: ('t' :: 'i' :: 's' :: ' ' :: 'a' :: '_' :: 'b' :: [])

end SparkTextLab

namespace SparkTextLab

theorem getD_lookupAdd (acc : List (String × Nat)) (k : String) (v : Nat)
    (w : String) :
    getD (lookupAdd acc k v) w = getD acc w + (if k = w then v else 0) := by
  induction acc with
  | nil => by_cases h : k = w <;> simp [lookupAdd, getD, h]
  | cons p t ih =>
    obtain ⟨k1, v1⟩ := p
    by_cases h1 : k1 = k
    · subst h1
      by_cases h : k1 = w <;> simp [lookupAdd, getD, h]
    · by_cases h : k1 = w
      · subst h
        have hkw : ¬ k = k1 := fun hh => h1 hh.symm
        simp [lookupAdd, getD, h1, hkw]
      · simp [lookupAdd, getD, h1, h, ih]

theorem getD_foldl (ps : List (String × Nat)) :
    ∀ (acc : List (String × Nat)) (w : String),
      getD (ps.foldl (fun a p => lookupAdd a p.1 p.2) acc) w =
        getD acc w + sumFor ps w := by
  induction ps with
  | nil => intro acc w; simp [sumFor]
  | cons p t ih =>
    intro acc w
    rw [List.foldl_cons, ih, getD_lookupAdd, Nat.add_assoc]
    rfl

theorem getD_reduceByKey (ps : List (String × Nat)) (w : String) :
    getD (reduceByKey ps) w = sumFor ps w := by
  unfold reduceByKey
  rw [getD_foldl]
  simp [getD]

theorem sumValues_lookupAdd (acc : List (String × Nat)) (k : String)
    (v : Nat) : sumValues (lookupAdd acc k v) = sumValues acc + v := by
  induction acc with
  | nil => simp [lookupAdd, sumValues]
  | cons p t ih =>
    obtain ⟨k1, v1⟩ := p
    by_cases h : k1 = k
    · simp [lookupAdd, h, sumValues]
      omega
    · simp only [lookupAdd, if_neg h, sumValues, List.map_cons, List.sum_cons]
      simp only [sumValues] at ih
      omega

theorem sumValues_foldl (ps : List (String × Nat)) :
    ∀ acc : List (String × Nat),
      sumValues (ps.foldl (fun a p => lookupAdd a p.1 p.2) acc) =
        sumValues acc + sumValues ps := by
  induction ps with
  | nil => intro acc; simp [sumValues]
  | cons p t ih =>
    intro acc
    rw [List.foldl_cons, ih, sumValues_lookupAdd, Nat.add_assoc]
    rfl

theorem sumValues_reduceByKey (ps : List (String × Nat)) :
    sumValues (reduceByKey ps) = sumValues ps := by
  unfold reduceByKey
  rw [sumValues_foldl]
  simp [sumValues]

theorem sumValues_map_one (l : List String) :
    sumValues (l.map (fun w => (w, 1))) = l.length := by
  induction l with
  | nil => rfl
  | cons a l ih =>
    show 1 + sumValues (l.map (fun w => (w, 1))) = l.length + 1
    omega

theorem sumFor_append (a b : List (String × Nat)) (w : String) :
    sumFor (a ++ b) w = sumFor a w + sumFor b w := by
  simp [sumFor]

theorem sumFor_map_one (l : List String) (w : String) :
    sumFor (l.map (fun x => (x, 1))) w = l.count w := by
  induction l with
  | nil => rfl
  | cons a l ih =>
    show (if a = w then 1 else 0) + sumFor (l.map fun x => (x, 1)) w =
      (a :: l).count w
    rw [List.count_cons, ih]
    by_cases h : a = w
    · subst h
      simp only [if_pos rfl, beq_self_eq_true, if_true]
      omega
    · rw [if_neg h, show (a == w) = false from beq_eq_false_iff_ne.mpr h]
      simp

/-- C2: for every line-structured text input, tokenizing then counting
then summing all the counts of the resulting distribution equals the
total number of tokens the tokenizer emits over that input. -/
theorem counts_sum_to_token_total (lines : List String) :
    sumValues (rdd_word_counts lines) = (lines.flatMap tokenize).length := by
  unfold rdd_word_counts
  rw [sumValues_reduceByKey, sumValues_map_one]

/-- C1: for every collection of named input files and every token, the
global count distribution of the fan-out aggregation gives the token the
sum, over the files, of the count the per-file distribution of that file
gives it. -/
theorem global_eq_sum_per_file (files : List (String × String))
    (t : String) :
    getD (global_counts files) t =
      ((per_file files).map (fun fd => getD fd.2 t)).sum := by
  unfold global_counts per_file counterOf
  rw [getD_reduceByKey]
  induction files with
  | nil => simp [sumFor]
  | cons kv fs ih =>
    simp only [List.flatMap_cons, List.map_cons, List.map_append,
      List.sum_cons]
    rw [sumFor_append, ih]
    congr 1
    rw [getD_reduceByKey]

/-- C7: bigram counting gives every bigram the sum, over the records, of
its adjacent-pair occurrences inside that record alone (so no bigram ever
bridges a record boundary), and a record with k tokens yields exactly
k - 1 adjacent pairs (0 when k is 0). -/
theorem bigram_counts_per_record :
    (∀ (lines : List String) (b : String),
      getD (top_bigrams_counts lines) b =
        (lines.map (fun l => (lineBigrams (tokenize l)).count b)).sum) ∧
    (∀ ws : List String, (lineBigrams ws).length = ws.length - 1) := by
  constructor
  · intro lines b
    unfold top_bigrams_counts
    rw [getD_reduceByKey]
    induction lines with
    | nil => rfl
    | cons l ls ih =>
      rw [List.map_cons, List.filter_cons]
      by_cases h : tokenize l = []
      · rw [if_neg (by simp [h]), ih, List.map_cons, List.sum_cons, h]
        simp [lineBigrams]
      · rw [if_pos (by simp [h]), List.flatMap_cons, List.map_append,
          sumFor_append, sumFor_map_one, ih, List.map_cons, List.sum_cons]
  · intro ws
    unfold lineBigrams
    rw [List.length_zipWith]
    cases ws <;> simp

/-- C4: on an empty corpus the source does not return a defined result:
the zero-total counts make df_from_counts raise (schema inference over an
empty collection fails and the SQL total is null), the weighted average
divides by the zero total and raises, and the share filter divides a null
sum and raises.  Each raising path evaluates to none in the model, against
the required defined non-crashing result. -/
theorem zero_total_crashes :
    df_from_counts (rdd_word_counts []) = none ∧
    weighted_avg_word_length [] 0 = none ∧
    filter_count_ge [] 2 = none :=
  ⟨rfl, rfl, rfl⟩

/-- C8: the concrete scenario: the corpus of one line
"the cat sat. the dog sat." tokenizes to [the, cat, sat, the, dog, sat],
counts to the distribution with the at 2, cat at 1, sat at 2, dog at 1,
stopword filtering removes the entry of the, and deterministic top-2 with
descending count and the ascending lexicographic tie-break returns
[(sat, 2), (cat, 1)]. -/
theorem scenario_cat_dog :
    tokenize "the cat sat. the dog sat." =
      ["the", "cat", "sat", "the", "dog", "sat"] ∧
    rdd_word_counts ["the cat sat. the dog sat."] =
      [("the", 2), ("cat", 1), ("sat", 2), ("dog", 1)] ∧
    stopword_filter (rdd_word_counts ["the cat sat. the dog sat."]) =
      [("cat", 1), ("sat", 2), ("dog", 1)] ∧
    topNLex 2 (stopword_filter (rdd_word_counts ["the cat sat. the dog sat."])) =
      [("sat", 2), ("cat", 1)] := by
  refine ⟨by decide, by decide, by decide, by decide⟩

/-- C9: every row of the Statistics Engine data frame and every persisted
document carries a length field equal to the character count of its word
field: the first-pass placeholder column is discarded by the rebuild. -/
theorem length_field_eq_word_length (counts : List (String × Nat)) :
    (∀ r ∈ df_rows counts, r.2.2 = r.1.length) ∧
    (∀ d ∈ mongo_docs counts, d.2.2 = d.1.length) := by
  constructor
  · intro r hr
    simp only [df_rows, List.map_map, List.mem_map] at hr
    obtain ⟨wc, _, rfl⟩ := hr
    rfl
  · intro d hd
    simp only [mongo_docs, List.mem_map] at hd
    obtain ⟨wc, _, rfl⟩ := hd
    rfl

/-- Witness for C9 at a concrete counts collection and row. -/
theorem length_field_eq_word_length_w :
    (("cat", 2, 3) ∈ df_rows [("cat", 2)]) ∧
    ("cat", 2, 3).2.2 = ("cat", 2, 3).1.length :=
  ⟨by decide, (length_field_eq_word_length [("cat", 2)]).1 ("cat", 2, 3)
    (by decide)⟩

/-- C10: the fan-out aggregation keys each per-file entry by only the
final path segment of the file path; two distinct files agreeing on the
final segment therefore produce duplicate keys and the per-file result is
not a well-defined mapping keyed by file. -/
theorem per_file_keyed_by_basename :
    (∀ files : List (String × String),
      (per_file files).map Prod.fst = files.map (fun kv => basename kv.1)) ∧
    (per_file [("x/w.txt", ""), ("y/w.txt", "")]).map Prod.fst =
      ["w.txt", "w.txt"] ∧
    ¬ ((per_file [("x/w.txt", ""), ("y/w.txt", "")]).map Prod.fst).Nodup := by
  refine ⟨fun files => ?_, by decide, by decide⟩
  simp [per_file]

/-- Counterexample to C6: a distribution without any stopword key is left
untouched by stopword filtering, so the filtered distribution is not a
strict subset by key of the unfiltered one. -/
theorem stopword_filter_not_strict :
    stopword_filter [("cat", 1)] = [("cat", 1)] ∧
    ¬ keySet (stopword_filter [("cat", 1)]) ⊂ keySet [("cat", 1)] := by
  have h : stopword_filter [("cat", 1)] = [("cat", 1)] := by decide
  refine ⟨h, ?_⟩
  rw [h]
  intro hss
  exact hss.2 hss.1

/-- C6 amended: the stopword-filtered distribution holds exactly the
entries whose key is not a stopword, with counts unchanged, its key set
is a subset of the unfiltered key set, and the subset is strict exactly
when the unfiltered distribution has a stopword key. -/
theorem stopword_filter_exact (counts : List (String × Nat)) :
    (∀ w c, (w, c) ∈ stopword_filter counts ↔
      ((w, c) ∈ counts ∧ ¬ w ∈ STOPWORDS)) ∧
    keySet (stopword_filter counts) ⊆ keySet counts ∧
    ((∃ p ∈ counts, p.1 ∈ STOPWORDS) ↔
      keySet (stopword_filter counts) ⊂ keySet counts) := by
  have hmem : ∀ p : String × Nat,
      p ∈ stopword_filter counts ↔ (p ∈ counts ∧ ¬ p.1 ∈ STOPWORDS) := by
    intro p
    simp [stopword_filter, List.mem_filter]
  have hsub : keySet (stopword_filter counts) ⊆ keySet counts := by
    rintro w ⟨c, hc⟩
    exact ⟨c, ((hmem (w, c)).1 hc).1⟩
  refine ⟨fun w c => hmem (w, c), hsub, ?_, ?_⟩
  · rintro ⟨⟨w0, c0⟩, hp, hsw⟩
    refine ⟨hsub, fun hsup => ?_⟩
    obtain ⟨c1, hc1⟩ := hsup ⟨c0, hp⟩
    exact ((hmem (w0, c1)).1 hc1).2 hsw
  · rintro ⟨_, hnsub⟩
    obtain ⟨w, ⟨c, hc⟩, hnw⟩ := Set.not_subset.1 hnsub
    refine ⟨(w, c), hc, ?_⟩
    by_contra hns
    exact hnw ⟨c, (hmem (w, c)).2 ⟨hc, hns⟩⟩

/-- Counterexample to C5: with the nonempty distribution of one word of
count 1 and threshold 2 no record meets the threshold, and the share
computation raises (the SQL sum over the empty retained set is null and
dividing null raises), instead of returning the share 0 the claim
states. -/
theorem share_above_max_raises :
    filter_count_ge [("a", 1, 1)] 2 = none ∧
    filter_count_ge [("a", 1, 1)] 2 ≠ some ([], 0) :=
  ⟨by decide, by decide⟩

theorem filter_sum_le (p : String × Nat × Nat → Bool)
    (df : List (String × Nat × Nat)) :
    ((df.filter p).map (fun r => r.2.1)).sum ≤
      (df.map (fun r => r.2.1)).sum := by
  induction df with
  | nil => simp
  | cons d t ih =>
    by_cases h : p d = true
    · simp only [List.filter_cons, if_pos h, List.map_cons, List.sum_cons]
      omega
    · simp only [List.filter_cons, if_neg h, List.map_cons, List.sum_cons]
      omega

/-- C5 amended: over a nonempty distribution of positive counts, whenever
at least one record meets the threshold the filter returns exactly the
records of count at least n together with the retained total divided by
the whole total, a share lying in [0, 1] and equal to 1 when every record
meets the threshold; when the threshold exceeds every count the
computation raises (returns no result) rather than the share 0. -/
theorem share_filter_defined_path (df : List (String × Nat × Nat)) (n : Nat)
    (hpos : ∀ r ∈ df, 1 ≤ r.2.1) (hne : df ≠ []) :
    ((∃ r ∈ df, n ≤ r.2.1) →
      filter_count_ge df n =
        some (df.filter (fun r => n ≤ r.2.1), shareOf df n) ∧
      0 ≤ shareOf df n ∧ shareOf df n ≤ 1 ∧
      ((∀ r ∈ df, n ≤ r.2.1) → shareOf df n = 1)) ∧
    ((∀ r ∈ df, r.2.1 < n) → filter_count_ge df n = none) := by
  have htot : 0 < (df.map (fun r => r.2.1)).sum := by
    cases df with
    | nil => exact absurd rfl hne
    | cons d t =>
      have h1 := hpos d (List.mem_cons_self d t)
      simp only [List.map_cons, List.sum_cons]
      omega
  constructor
  · rintro ⟨r0, hr0, hn0⟩
    have hfne : df.filter (fun r => n ≤ r.2.1) ≠ [] :=
      List.ne_nil_of_mem (List.mem_filter.2 ⟨hr0, by simpa using hn0⟩)
    refine ⟨?_, ?_, ?_, ?_⟩
    · cases df with
      | nil => exact absurd rfl hne
      | cons d t =>
        cases hf : (d :: t).filter (fun r => n ≤ r.2.1) with
        | nil => exact absurd hf hfne
        | cons f ft =>
          show filter_count_ge (d :: t) n = _
          unfold filter_count_ge
          rw [hf]
          simp only
          rw [if_neg (by omega)]
          rw [← hf]
          rfl
    · exact div_nonneg (Nat.cast_nonneg _) (Nat.cast_nonneg _)
    · rw [shareOf, div_le_one (by exact_mod_cast htot)]
      exact_mod_cast filter_sum_le _ df
    · intro hall
      have hself : df.filter (fun r => n ≤ r.2.1) = df :=
        List.filter_eq_self.2 (fun r hr => by simpa using hall r hr)
      rw [shareOf, hself]
      exact div_self (ne_of_gt (by exact_mod_cast htot))
  · intro hlt
    have hfilt : df.filter (fun r => n ≤ r.2.1) = [] :=
      List.filter_eq_nil_iff.2 (fun r hr => by
        have := hlt r hr
        simp
        omega)
    cases df with
    | nil => exact absurd rfl hne
    | cons d t =>
      unfold filter_count_ge
      rw [hfilt]

theorem eq_quote_of_isQuote {c : Char} (h : isQuote c = true) :
    c = quoteChar := by
  unfold isQuote at h
  exact of_decide_eq_true h

theorem isTokChar_of_isQuote {c : Char} (h : isQuote c = true) :
    isTokChar c = true := by
  rw [eq_quote_of_isQuote h]
  decide

theorem not_word_of_isQuote {c : Char} (h : isQuote c = true) :
    isWordChar c = false := by
  rw [eq_quote_of_isQuote h]
  decide

theorem isAlphanum_of_tok_not_quote {c : Char} (h1 : isTokChar c = true)
    (h2 : isQuote c = false) : c.isAlphanum = true := by
  unfold isTokChar at h1
  rcases Bool.or_eq_true_iff.1 h1 with h | h
  · exact h
  · exfalso
    unfold isQuote at h2
    rw [h] at h2
    exact Bool.noConfusion h2

theorem word_of_isAlphanum {c : Char} (h : c.isAlphanum = true) :
    isWordChar c = true := by
  unfold isWordChar
  rw [h]
  rfl

theorem not_quote_of_isAlphanum {c : Char} (h : c.isAlphanum = true) :
    isQuote c = false := by
  cases hq : isQuote c with
  | false => rfl
  | true =>
    rw [eq_quote_of_isQuote hq] at h
    exact absurd h (by decide)

theorem not_word_of_not_tok {c : Char}
    (hH : isTokChar c = true ∨ isWordChar c = false)
    (h : isTokChar c = false) : isWordChar c = false := by
  rcases hH with h1 | h1
  · rw [h] at h1
    exact absurd h1 Bool.false_ne_true
  · exact h1

theorem dropWhile_head_false (p : Char → Bool) (l : List Char) :
    ∀ d ∈ (l.dropWhile p).head?, p d = false := by
  induction l with
  | nil =>
    intro d hd
    simp at hd
  | cons c t ih =>
    intro d hd
    cases h : p c with
    | true =>
      rw [List.dropWhile_cons_of_pos h] at hd
      exact ih d hd
    | false =>
      rw [List.dropWhile_cons_of_neg (by simp [h])] at hd
      have hcd : c = d := by simpa using hd
      rw [← hcd]
      exact h

theorem dropWhile_append_all (p : Char → Bool) :
    ∀ A B : List Char, (∀ x ∈ A, p x = true) →
      (A ++ B).dropWhile p = B.dropWhile p := by
  intro A
  induction A with
  | nil => intro B _; rfl
  | cons a A ih =>
    intro B h
    rw [List.cons_append, List.dropWhile_cons_of_pos (h a (by simp))]
    exact ih B (fun x hx => h x (by simp [hx]))

theorem runsOfAux_congr :
    ∀ (f g : Nat) (s : List Char), s.length ≤ f → s.length ≤ g →
      runsOfAux f s = runsOfAux g s := by
  intro f
  induction f with
  | zero =>
    intro g s hf _
    have hs : s = [] := List.length_eq_zero.1 (Nat.le_zero.1 hf)
    subst hs
    cases g <;> rfl
  | succ f ih =>
    intro g s hf hg
    cases s with
    | nil => cases g <;> rfl
    | cons c t =>
      cases g with
      | zero => simp at hg
      | succ g =>
        show runsOfAux (f + 1) (c :: t) = runsOfAux (g + 1) (c :: t)
        simp only [List.length_cons] at hf hg
        cases h : isTokChar c with
        | true =>
          simp only [runsOfAux, h, if_true]
          rw [ih g (t.dropWhile isTokChar)
            (le_trans (List.dropWhile_sublist _).length_le (by omega))
            (le_trans (List.dropWhile_sublist _).length_le (by omega))]
        | false =>
          simp only [runsOfAux, h, Bool.false_eq_true, if_false]
          exact ih g t (by omega) (by omega)

theorem runsOf_cons_not {c : Char} {t : List Char} (h : isTokChar c = false) :
    runsOf (c :: t) = runsOf t := by
  show runsOfAux (t.length + 1) (c :: t) = runsOfAux t.length t
  simp only [runsOfAux, h, Bool.false_eq_true, if_false]

theorem runsOf_cons_tok {c : Char} {t : List Char} (h : isTokChar c = true) :
    runsOf (c :: t) =
      (c :: t.takeWhile isTokChar) :: runsOf (t.dropWhile isTokChar) := by
  show runsOfAux (t.length + 1) (c :: t) = _
  simp only [runsOfAux, h, if_true]
  rw [runsOfAux_congr t.length (t.dropWhile isTokChar).length
    (t.dropWhile isTokChar) (List.dropWhile_sublist _).length_le (le_refl _)]
  rfl

theorem stripRun_cons_quote {c : Char} {r : List Char}
    (h : isQuote c = true) : stripRun (c :: r) = stripRun r := by
  unfold stripRun
  rw [List.dropWhile_cons_of_pos h]

theorem stripRun_singleton_quote {c : Char} (h : isQuote c = true) :
    stripRun [c] = [] := by
  unfold stripRun
  rw [List.dropWhile_cons_of_pos h]
  rfl

theorem runsStripped_cons_not {c : Char} {t : List Char}
    (h : isTokChar c = false) : runsStripped (c :: t) = runsStripped t := by
  unfold runsStripped
  rw [runsOf_cons_not h]

theorem runsStripped_cons_quote {c : Char} {t : List Char}
    (h : isQuote c = true) : runsStripped (c :: t) = runsStripped t := by
  have htok := isTokChar_of_isQuote h
  unfold runsStripped
  rw [runsOf_cons_tok htok]
  cases t with
  | nil =>
    simp only [List.takeWhile_nil, List.dropWhile_nil, List.filterMap_cons]
    simp [stripRun_singleton_quote h]
  | cons d t2 =>
    cases hd : isTokChar d with
    | true =>
      rw [runsOf_cons_tok hd, List.takeWhile_cons_of_pos hd,
        List.dropWhile_cons_of_pos hd, List.filterMap_cons,
        List.filterMap_cons, stripRun_cons_quote h]
    | false =>
      rw [List.takeWhile_cons_of_neg (by simp [hd]),
        List.dropWhile_cons_of_neg (by simp [hd]), runsOf_cons_not hd,
        List.filterMap_cons]
      simp [stripRun_singleton_quote h]

theorem runsStripped_append_quotes :
    ∀ qs rest : List Char, (∀ x ∈ qs, isQuote x = true) →
      runsStripped (qs ++ rest) = runsStripped rest := by
  intro qs
  induction qs with
  | nil => intro rest _; rfl
  | cons q qt ih =>
    intro rest h
    rw [List.cons_append, runsStripped_cons_quote (h q (by simp)),
      ih rest (fun x hx => h x (by simp [hx]))]

theorem optWord_some (c : Char) : optWord (some c) = isWordChar c := rfl

theorem optWord_none : optWord none = false := rfl

theorem greedyRev_none :
    ∀ (rv : List Char) (next0 : Option Char),
      (∀ x ∈ rv, isQuote x = true) → optWord next0 = false →
      greedyRev rv next0 = none := by
  intro rv
  induction rv with
  | nil => intro next0 _ _; rfl
  | cons p rt ih =>
    intro next0 hq hw
    have hp := hq p (by simp)
    have hb : isB (some p) next0 = false := by
      simp [isB, optWord_some, hw, not_word_of_isQuote hp]
    simp only [greedyRev, hb, Bool.false_eq_true, if_false]
    exact ih (some p) (fun x hx => hq x (by simp [hx]))
      (by simp [optWord_some, not_word_of_isQuote hp])

theorem greedyRev_quotes_alnum :
    ∀ qs : List Char, (∀ x ∈ qs, isQuote x = true) →
      ∀ a : Char, a.isAlphanum = true →
      ∀ (rev : List Char) (next0 : Option Char), optWord next0 = false →
      greedyRev (qs ++ a :: rev) next0 = some (rev.length + 1) := by
  intro qs
  induction qs with
  | nil =>
    intro _ a ha rev next0 hw
    have hb : isB (some a) next0 = true := by
      simp [isB, optWord_some, hw, word_of_isAlphanum ha]
    simp [greedyRev, hb]
  | cons q qt ih =>
    intro hq a ha rev next0 hw
    have hqq := hq q (by simp)
    have hb : isB (some q) next0 = false := by
      simp [isB, optWord_some, hw, not_word_of_isQuote hqq]
    rw [List.cons_append]
    simp only [greedyRev, hb, Bool.false_eq_true, if_false]
    exact ih (fun x hx => hq x (by simp [hx])) a ha rev (some q)
      (by simp [optWord_some, not_word_of_isQuote hqq])

theorem takeWhile_all_quotes :
    ∀ l : List Char, quotesThenSep l →
      ∀ x ∈ l.takeWhile isTokChar, isQuote x = true := by
  intro l
  induction l with
  | nil => intro _ x hx; simp at hx
  | cons c t ih =>
    intro hQ x hx
    cases hc : isTokChar c with
    | false =>
      rw [List.takeWhile_cons_of_neg (by simp [hc])] at hx
      simp at hx
    | true =>
      cases hq : isQuote c with
      | false =>
        exfalso
        have h1 : (c :: t).dropWhile isQuote = c :: t :=
          List.dropWhile_cons_of_neg (by simp [hq])
        have h2 := hQ c (by rw [h1]; rfl)
        rw [hc] at h2
        exact Bool.noConfusion h2
      | true =>
        rw [List.takeWhile_cons_of_pos hc] at hx
        rcases List.mem_cons.1 hx with rfl | hx2
        · exact hq
        · refine ih ?_ x hx2
          intro d hd
          exact hQ d (by rw [List.dropWhile_cons_of_pos hq]; exact hd)

theorem run_analysis (run : List Char) (c : Char) (t2 : List Char)
    (hrun : run = c :: t2) (ha : c.isAlphanum = true)
    (hall : ∀ x ∈ run, isTokChar x = true)
    (next0 : Option Char) (hw : optWord next0 = false) :
    ∃ qs : List Char, ∃ a : Char,
      a.isAlphanum = true ∧ (∀ x ∈ qs, isQuote x = true) ∧
      greedyLen run next0 = some (stripRun run).length ∧
      run.take (stripRun run).length = stripRun run ∧
      run.drop (stripRun run).length = qs ∧
      (stripRun run).getLast? = some a ∧
      stripRun run ≠ [] ∧
      (stripRun run).length + qs.length = run.length := by
  have hcq : isQuote c = false := not_quote_of_isAlphanum ha
  have hdrop1 : run.dropWhile isQuote = run := by
    rw [hrun]
    exact List.dropWhile_cons_of_neg (by simp [hcq])
  have hstrip : stripRun run = (run.reverse.dropWhile isQuote).reverse := by
    unfold stripRun
    rw [hdrop1]
  set rv := run.reverse with hrv
  have hsplit : rv.takeWhile isQuote ++ rv.dropWhile isQuote = rv :=
    List.takeWhile_append_dropWhile _ _
  have hqall : ∀ x ∈ rv.takeWhile isQuote, isQuote x = true :=
    fun x hx => List.mem_takeWhile_imp hx
  have hne2 : rv.dropWhile isQuote ≠ [] := by
    intro hnil
    have hallq : ∀ x ∈ rv, isQuote x = true := by
      intro x hx
      rw [← hsplit, hnil, List.append_nil] at hx
      exact hqall x hx
    have hcq2 := hallq c (by
      rw [hrv]
      exact List.mem_reverse.2 (by rw [hrun]; simp))
    rw [hcq] at hcq2
    exact Bool.noConfusion hcq2
  obtain ⟨a, rev2, hdrop2⟩ := List.exists_cons_of_ne_nil hne2
  have haq : isQuote a = false := by
    have h := dropWhile_head_false isQuote rv
    rw [hdrop2] at h
    exact h a rfl
  have hamem : a ∈ run := by
    have h1 : a ∈ rv.dropWhile isQuote := by rw [hdrop2]; simp
    have h2 : a ∈ rv := (List.dropWhile_sublist _).subset h1
    rw [hrv] at h2
    exact List.mem_reverse.1 h2
  have haa : a.isAlphanum = true :=
    isAlphanum_of_tok_not_quote (hall a hamem) haq
  have hstrip2 : stripRun run = (a :: rev2).reverse := by
    rw [hstrip, hdrop2]
  have hlenstrip : (stripRun run).length = rev2.length + 1 := by
    rw [hstrip2]
    simp
  have h2 : rv = rv.takeWhile isQuote ++ (a :: rev2) := by
    rw [← hdrop2]
    exact hsplit.symm
  have h1 : rv.reverse = run := by rw [hrv, List.reverse_reverse]
  have hreq : run = (a :: rev2).reverse ++ (rv.takeWhile isQuote).reverse :=
    calc run = rv.reverse := h1.symm
      _ = (rv.takeWhile isQuote ++ (a :: rev2)).reverse := by rw [← h2]
      _ = (a :: rev2).reverse ++ (rv.takeWhile isQuote).reverse :=
        List.reverse_append _ _
  have hgreedy : greedyLen run next0 = some (rev2.length + 1) := by
    unfold greedyLen
    rw [← hrv, h2]
    exact greedyRev_quotes_alnum _ hqall a haa rev2 next0 hw
  have htake : run.take (stripRun run).length = stripRun run := by
    rw [hstrip2]
    conv in run.take _ => rw [hreq]
    exact List.take_left _ _
  have hdrop3 : run.drop (stripRun run).length = (rv.takeWhile isQuote).reverse := by
    rw [hstrip2]
    conv in run.drop _ => rw [hreq]
    exact List.drop_left _ _
  have hlast : (stripRun run).getLast? = some a := by
    rw [hstrip2, List.getLast?_reverse]
    rfl
  have hnonnil : stripRun run ≠ [] := by
    rw [hstrip2]
    simp
  have hlensum :
      (stripRun run).length + ((rv.takeWhile isQuote).reverse).length =
        run.length := by
    have h1 : run.length =
        ((a :: rev2).reverse ++ (rv.takeWhile isQuote).reverse).length :=
      congrArg List.length hreq
    rw [List.length_append] at h1
    rw [hlenstrip, h1]
    simp
  exact ⟨(rv.takeWhile isQuote).reverse, a, haa,
    fun x hx => hqall x (List.mem_reverse.1 hx),
    by rw [hlenstrip]; exact hgreedy, htake, hdrop3, hlast, hnonnil, hlensum⟩

theorem scanAux_eq_runsStripped :
    ∀ (fuel : Nat) (rem : List Char) (prev : Option Char),
      rem.length ≤ fuel → noForeignWordChar rem →
      (optWord prev = true → quotesThenSep rem) →
      scanAux fuel prev rem = runsStripped rem := by
  intro fuel
  induction fuel with
  | zero =>
    intro rem prev hf _ _
    have hrem : rem = [] := List.length_eq_zero.1 (Nat.le_zero.1 hf)
    subst hrem
    rfl
  | succ fuel ih =>
    intro rem prev hf hH hQ
    cases rem with
    | nil => rfl
    | cons c t =>
      simp only [List.length_cons] at hf
      have hft : t.length ≤ fuel := by omega
      have hHt : noForeignWordChar t :=
        fun x hx => hH x (List.mem_cons_of_mem _ hx)
      have hwrest : optWord (t.dropWhile isTokChar).head? = false := by
        cases hr : (t.dropWhile isTokChar).head? with
        | none => rfl
        | some d =>
          have hd1 : isTokChar d = false :=
            dropWhile_head_false isTokChar t d (by rw [hr]; rfl)
          have hd2 : d ∈ t :=
            (List.dropWhile_sublist _).subset
              (List.mem_of_mem_head? (by rw [hr]; rfl))
          rw [optWord_some]
          exact not_word_of_not_tok (hH d (List.mem_cons_of_mem _ hd2)) hd1
      cases htok : isTokChar c with
      | false =>
        have hcw : isWordChar c = false :=
          not_word_of_not_tok (hH c (List.mem_cons_self _ _)) htok
        have hguard : (isTokChar c && isB prev (some c)) = false := by
          rw [htok]
          rfl
        simp only [scanAux, hguard, Bool.false_eq_true, if_false]
        rw [ih t (some c) hft hHt (by
          intro hco
          rw [optWord_some, hcw] at hco
          exact Bool.noConfusion hco)]
        exact (runsStripped_cons_not htok).symm
      | true =>
        cases hq : isQuote c with
        | true =>
          have hcw : isWordChar c = false := not_word_of_isQuote hq
          cases hp : optWord prev with
          | false =>
            have hguard : (isTokChar c && isB prev (some c)) = false := by
              rw [htok]
              simp [isB, optWord_some, hp, hcw]
            simp only [scanAux, hguard, Bool.false_eq_true, if_false]
            rw [ih t (some c) hft hHt (by
              intro hco
              rw [optWord_some, hcw] at hco
              exact Bool.noConfusion hco)]
            exact (runsStripped_cons_quote hq).symm
          | true =>
            have hQc := hQ hp
            have hguard : (isTokChar c && isB prev (some c)) = true := by
              rw [htok]
              simp [isB, optWord_some, hp, hcw]
            have hrunq : ∀ x ∈ c :: t.takeWhile isTokChar,
                isQuote x = true := by
              have h1 : (c :: t).takeWhile isTokChar =
                  c :: t.takeWhile isTokChar :=
                List.takeWhile_cons_of_pos htok
              rw [← h1]
              exact takeWhile_all_quotes (c :: t) hQc
            have hg : greedyLen (c :: t.takeWhile isTokChar)
                (t.dropWhile isTokChar).head? = none := by
              unfold greedyLen
              exact greedyRev_none _ _
                (fun x hx => hrunq x (List.mem_reverse.1 hx)) hwrest
            simp only [scanAux, hguard, if_true, hg]
            rw [ih t (some c) hft hHt (by
              intro hco
              rw [optWord_some, hcw] at hco
              exact Bool.noConfusion hco)]
            exact (runsStripped_cons_quote hq).symm
        | false =>
          have ha : c.isAlphanum = true := isAlphanum_of_tok_not_quote htok hq
          have hcw : isWordChar c = true := word_of_isAlphanum ha
          cases hp : optWord prev with
          | true =>
            exfalso
            have hQc := hQ hp
            have h1 : (c :: t).dropWhile isQuote = c :: t :=
              List.dropWhile_cons_of_neg (by simp [hq])
            have h2 := hQc c (by rw [h1]; rfl)
            rw [htok] at h2
            exact Bool.noConfusion h2
          | false =>
            have hguard : (isTokChar c && isB prev (some c)) = true := by
              rw [htok]
              simp [isB, optWord_some, hp, hcw]
            have hallrun : ∀ x ∈ c :: t.takeWhile isTokChar,
                isTokChar x = true := by
              intro x hx
              rcases List.mem_cons.1 hx with rfl | hx2
              · exact htok
              · exact List.mem_takeWhile_imp hx2
            obtain ⟨qs, a, haa, hqs, hgreedy, htake, hdropq, hlast, hnn,
              hlensum⟩ :=
              run_analysis (c :: t.takeWhile isTokChar) c
                (t.takeWhile isTokChar) rfl ha hallrun
                (t.dropWhile isTokChar).head? hwrest
            simp only [scanAux, hguard, if_true, hgreedy]
            rw [htake, hdropq, hlast]
            have hlen2 : (qs ++ t.dropWhile isTokChar).length ≤ fuel := by
              rw [List.length_append]
              have h3 : (t.takeWhile isTokChar).length +
                  (t.dropWhile isTokChar).length = t.length := by
                rw [← List.length_append, List.takeWhile_append_dropWhile]
              have h6 : 1 ≤ (stripRun (c :: t.takeWhile isTokChar)).length := by
                cases hsl : stripRun (c :: t.takeWhile isTokChar) with
                | nil => exact absurd hsl hnn
                | cons _ _ => simp
              simp only [List.length_cons] at hlensum
              omega
            have hH2 : noForeignWordChar (qs ++ t.dropWhile isTokChar) := by
              intro x hx
              rcases List.mem_append.1 hx with hx1 | hx2
              · exact Or.inl (isTokChar_of_isQuote (hqs x hx1))
              · exact hHt x ((List.dropWhile_sublist _).subset hx2)
            have hQ2 : optWord (some a) = true →
                quotesThenSep (qs ++ t.dropWhile isTokChar) := by
              intro _ d hd
              rw [dropWhile_append_all isQuote qs _ hqs] at hd
              cases hr : t.dropWhile isTokChar with
              | nil =>
                rw [hr] at hd
                simp at hd
              | cons e t3 =>
                have he : isTokChar e = false := by
                  have h := dropWhile_head_false isTokChar t
                  rw [hr] at h
                  exact h e rfl
                have heq : isQuote e = false := by
                  cases hqe : isQuote e with
                  | false => rfl
                  | true =>
                    rw [isTokChar_of_isQuote hqe] at he
                    exact Bool.noConfusion he
                rw [hr, List.dropWhile_cons_of_neg (by simp [heq])] at hd
                have hde : e = d := by simpa using hd
                rw [← hde]
                exact he
            rw [ih (qs ++ t.dropWhile isTokChar) (some a) hlen2 hH2 hQ2,
              runsStripped_append_quotes qs _ hqs]
            have hR : runsStripped (c :: t) =
                stripRun (c :: t.takeWhile isTokChar) ::
                  runsStripped (t.dropWhile isTokChar) := by
              unfold runsStripped
              rw [runsOf_cons_tok htok, List.filterMap_cons, if_neg hnn]
            rw [hR]

/-- Counterexample to C3: on the text made of an apostrophe-led word
followed by two alphanumeric runs joined by an underscore, the tokenizer
emits only the apostrophe-stripped first word, not the three maximal
[0-9a-zA-Z'] runs the claim describes: the word-boundary anchors strip the
edge apostrophe and let the underscore suppress both adjacent runs. -/
theorem tokenize_not_maximal_runs :
    tokenize (String.mk c3Input) = ["tis"] ∧
    claimed_tokenize (String.mk c3Input) =
      [String.mk (quoteChar :: ('t' :: 'i' :: 's' :: [])), "a", "b"] ∧
    tokenize (String.mk c3Input) ≠ claimed_tokenize (String.mk c3Input) := by
  refine ⟨by decide, by decide, by decide⟩

/-- C3 amended: for every ASCII text containing no word character outside
the class [0-9a-zA-Z'] (in particular no underscore), the tokenizer
returns, in order, each maximal contiguous run of class characters
stripped of its leading and trailing apostrophes and lower-cased,
omitting the runs made of apostrophes alone; every other character acts
purely as a separator, empty input yields the empty sequence, and the
function is total.  The ASCII bound keeps the inputs on the plane where
the modelled word class coincides with the engine's Unicode one. -/
theorem tokenize_strips_runs (s : List Char)
    (_hascii : ∀ c ∈ s, c.val < 128)
    (h : ∀ c ∈ s, isTokChar c = true ∨ isWordChar c = false) :
    tokenize (String.mk s) =
      (runsStripped s).map (fun w => String.mk (w.map Char.toLower)) := by
  unfold tokenize findall
  show (scanAux (String.mk s).data.length none (String.mk s).data).map _ = _
  have hdata : (String.mk s).data = s := rfl
  rw [hdata, scanAux_eq_runsStripped s.length s none (le_refl _) h
    (fun hco => absurd hco (by rw [optWord_none]; exact Bool.noConfusion))]

/-- Witness for C3 amended at a concrete ASCII text. -/
theorem tokenize_strips_runs_w :
    (∀ c ∈ "cat dog".data, c.val < 128) ∧
    (∀ c ∈ "cat dog".data, isTokChar c = true ∨ isWordChar c = false) ∧
    tokenize (String.mk "cat dog".data) = ["cat", "dog"] :=
  ⟨by decide, by decide,
    (tokenize_strips_runs "cat dog".data (by decide) (by decide)).trans
      (by decide)⟩

/-- Witness for C5 at the concrete scenario distribution with threshold
2: the share is 4/6 = 2/3. -/
theorem share_filter_defined_path_w :
    (∀ r ∈ ([("the", 2, 3), ("cat", 1, 3), ("sat", 2, 3), ("dog", 1, 3)] :
        List (String × Nat × Nat)), 1 ≤ r.2.1) ∧
    filter_count_ge
        [("the", 2, 3), ("cat", 1, 3), ("sat", 2, 3), ("dog", 1, 3)] 2 =
      some ([("the", 2, 3), ("sat", 2, 3)], (2 : ℚ) / 3) := by
  refine ⟨by decide, ?_⟩
  have h := (share_filter_defined_path
    [("the", 2, 3), ("cat", 1, 3), ("sat", 2, 3), ("dog", 1, 3)] 2
    (by decide) (by decide)).1 ⟨("the", 2, 3), by decide, by decide⟩
  rw [h.1]
  have hf : ([("the", 2, 3), ("cat", 1, 3), ("sat", 2, 3), ("dog", 1, 3)] :
      List (String × Nat × Nat)).filter (fun r => 2 ≤ r.2.1) =
      [("the", 2, 3), ("sat", 2, 3)] := by decide
  rw [shareOf, hf]
  norm_num

end SparkTextLab

